import Mathlib

set_option maxHeartbeats 1000000

namespace Libcaf

/-- Kind tag of a tree entry, mirroring TreeRecordType in the source. -/
inductive TreeRecordType where
  | TREE
  | BLOB
deriving DecidableEq

/-- Modelled from the spec: a TreeRecord is kind, target OID and name (the
TreeRecord class itself lives outside src, in the libcaf package). -/
structure TreeRecord where
  type : TreeRecordType
  hash : String
  name : String
deriving DecidableEq

/-- Modelled from the spec: two TreeRecords are equal iff both kind and
target are equal; this is the record equality operator merge.py compares
with. -/
def recordEq (a b : TreeRecord) : Bool :=
  decide (a.type = b.type ∧ a.hash = b.hash)

/-- Tree object: a mapping from entry name to TreeRecord, carried as an
association list (the Python source stores a dict). -/
structure Tree where
  records : List (String × TreeRecord)
deriving DecidableEq

/-- Commit object: snapshot plus metadata plus optional parents. -/
structure Commit where
  tree : String
  author : String
  message : String
  timestamp : Int
  parent : Option String
  secondParent : Option String
deriving DecidableEq

/-- Errors surfaced by the merge engine. The constructor outOfFuel is a
model artifact standing for a computation that does not terminate within
the given fuel. -/
inductive CafError where
  | mergeConflict (msg : String)
  | missingObject (oid : String)
  | decodeError
  | outOfFuel
deriving DecidableEq

/-- Modelled from the spec: the external collaborators of the merge engine
(object store, hashing, the UTF-8 codec, the three_merge library and the
checkout collaborator), all of which live outside src. Content addressing
is captured by the hash fields; theorems add the well-formedness facts they
need as explicit hypotheses. -/
structure Store where
  trees : String → Option Tree
  blobs : String → Option (List Nat)
  commits : String → Option Commit
  hashTree : List (String × TreeRecord) → String
  hashBlob : List Nat → String
  hashCommit : Commit → String
  decodeUtf8 : List Nat → Option String
  encodeUtf8 : String → List Nat
  threeMerge : String → String → String → String
  materialize : String → List (String × String)

/-- Dictionary lookup on the association list of records. -/
def lookupRec (l : List (String × TreeRecord)) (k : String) : Option TreeRecord :=
  (l.find? (fun p => p.1 == k)).map (fun p => p.2)

/-- Keys of an association list of records. -/
def keysOf (l : List (String × TreeRecord)) : List String :=
  l.map Prod.fst

/-- Insert a key into a strictly sorted key list, keeping it sorted and
duplicate free. -/
def insertKey (x : String) : List String → List String
  | [] => [x]
  | y :: ys => if x = y then y :: ys else if x < y then x :: y :: ys else y :: insertKey x ys

/-- Sorted duplicate-free list of keys; this models both the set union of
dict keys iterated by merge_trees and the canonical lexicographic entry
order the object store imposes when hashing a tree. -/
def sortDedup (l : List String) : List String :=
  l.foldr insertKey []

/-- Canonical record list of a tree: entries ordered lexicographically by
name, as the canonical serialization of the object store imposes. -/
def canonRecords (l : List (String × TreeRecord)) : List (String × TreeRecord) :=
  (sortDedup (keysOf l)).filterMap (fun k => (lookupRec l k).map (fun r => (k, r)))

/-- Read a blob and decode it as UTF-8 (source function _read_blob_text); a
missing blob is the missing-object failure of the store, a non-UTF-8 blob
is a decode failure. -/
def readBlobText (store : Store) (h : String) : Except CafError String :=
  match store.blobs h with
  | none => .error (.missingObject h)
  | some bytes =>
    match store.decodeUtf8 bytes with
    | none => .error .decodeError
    | some s => .ok s

/-- Save text as a blob and return its OID (source function _save_blob_text). -/
def saveBlobText (store : Store) (text : String) : String :=
  store.hashBlob (store.encodeUtf8 text)

/-- Boolean test that the first list starts with the second. -/
def listPrefixB : List Char → List Char → Bool
  | [], _ => true
  | _ :: _, [] => false
  | a :: as, b :: bs => decide (a = b) && listPrefixB (a :: as).tail bs

/-- Boolean test that the pattern occurs contiguously inside the list. -/
def listInfixB (pat : List Char) : List Char → Bool
  | [] => listPrefixB pat []
  | c :: cs => listPrefixB pat (c :: cs) || listInfixB pat cs

/-- Substring containment, modelling the Python in operator on str. -/
def strContains (s pat : String) : Bool :=
  listInfixB pat.toList s.toList

/-- Conflict marker test merge_trees applies to the three_merge output. -/
def hasConflictMarkers (s : String) : Bool :=
  strContains s "<<<<<<<" && strContains s "=======" && strContains s ">>>>>>>"

/-- Blob auto-merge branch of merge_trees (source lines 166 to 186): read
and decode the three blobs, run the external three-way text merger, fail on
conflict markers, otherwise persist the merged text as a new blob under the
entry name. Any failure while reading the blobs is caught and reraised as a
merge conflict, mirroring the except Exception block in the source. -/
def mergeBlobEntry (store : Store) (name : String) (b t s : TreeRecord) :
    Except CafError (Option TreeRecord) :=
  match readBlobText store b.hash, readBlobText store t.hash, readBlobText store s.hash with
  | .ok baseText, .ok targetText, .ok sourceText =>
    let mergedText := store.threeMerge sourceText targetText baseText
    if hasConflictMarkers mergedText then
      .error (.mergeConflict ("conflict in file: " ++ name))
    else
      .ok (some ⟨TreeRecordType.BLOB, saveBlobText store mergedText, name⟩)
  | _, _, _ =>
    .error (.mergeConflict ("could not decode as UTF-8 for auto-merge file: " ++ name))

/-- Per-entry decision of merge_trees (the loop body, source lines 100 to
189), with the recursive call on subtrees abstracted as the argument recur.
The first record argument is the base entry, the second the target entry,
the third the source entry; a returned none means the entry is dropped from
the merged tree. -/
def mergeEntryWith (store : Store) (recur : String → String → String → Except CafError String)
    (name : String) :
    Option TreeRecord → Option TreeRecord → Option TreeRecord →
      Except CafError (Option TreeRecord)
  | none, some t, some s =>
    if recordEq t s then .ok (some t)
    else .error (.mergeConflict ("conflict: added different files: " ++ name))
  | none, some t, none => .ok (some t)
  | none, none, some s => .ok (some s)
  | none, none, none => .ok none
  | some _, none, none => .ok none
  | some b, none, some s =>
    if recordEq s b then .ok none
    else .error (.mergeConflict ("conflict: one deleted and one changed: " ++ name))
  | some b, some t, none =>
    if recordEq t b then .ok none
    else .error (.mergeConflict ("conflict: one deleted and one changed: " ++ name))
  | some b, some t, some s =>
    if recordEq s t then .ok (some s)
    else if recordEq s b then .ok (some t)
    else if recordEq t b then .ok (some s)
    else if b.type = TreeRecordType.TREE ∧ t.type = TreeRecordType.TREE ∧
        s.type = TreeRecordType.TREE then
      (recur b.hash t.hash s.hash).map (fun h => some ⟨TreeRecordType.TREE, h, name⟩)
    else if b.type = TreeRecordType.BLOB ∧ t.type = TreeRecordType.BLOB ∧
        s.type = TreeRecordType.BLOB then
      mergeBlobEntry store name b t s
    else .error (.mergeConflict ("different types of files: " ++ name))

/-- Fold of the per-entry decision over the union of entry names, building
the merged record dict (the loop of merge_trees). The Python loop iterates
a set in unspecified order; the model fixes the sorted order, which leaves
the resulting dict unchanged and only pins down which conflict fires first. -/
def mergeRecordsGoWith (store : Store)
    (recur : String → String → String → Except CafError String)
    (bR tR sR : List (String × TreeRecord)) :
    List String → Except CafError (List (String × TreeRecord))
  | [] => .ok []
  | k :: ks => do
    let entry ← mergeEntryWith store recur k (lookupRec bR k) (lookupRec tR k) (lookupRec sR k)
    let rest ← mergeRecordsGoWith store recur bR tR sR ks
    match entry with
    | none => .ok rest
    | some r => .ok ((k, r) :: rest)

/-- Records of the tree stored at the given hash; a hash not mapping to a
stored tree yields the empty dict, mirroring the pattern base_records =
base_t.records if base_t else in the source. -/
def recordsOf (store : Store) (h : String) : List (String × TreeRecord) :=
  match store.trees h with
  | some t => t.records
  | none => []

/-- Three-way tree merge (source function merge_trees), with fuel bounding
the recursion depth. Loads the three trees, walks the union of their entry
names, merges every entry, then saves the merged tree; the returned value
is the OID of the saved tree, the hash of its canonical record list. -/
def mergeTreesF (store : Store) : Nat → String → String → String → Except CafError String
  | 0, _, _, _ => .error .outOfFuel
  | fuel + 1, baseH, targetH, sourceH =>
    let bR := recordsOf store baseH
    let tR := recordsOf store targetH
    let sR := recordsOf store sourceH
    (mergeRecordsGoWith store (mergeTreesF store fuel) bR tR sR
        (sortDedup (keysOf bR ++ keysOf tR ++ keysOf sR))).map
      (fun merged => store.hashTree (canonRecords merged))

/-- Merged record dict computed by one level of merge_trees, before the
merged tree is saved and hashed. -/
def mergeTreesRecords (store : Store) (fuel : Nat) (baseH targetH sourceH : String) :
    Except CafError (List (String × TreeRecord)) :=
  mergeRecordsGoWith store (mergeTreesF store fuel)
    (recordsOf store baseH) (recordsOf store targetH) (recordsOf store sourceH)
    (sortDedup (keysOf (recordsOf store baseH) ++ keysOf (recordsOf store targetH) ++
      keysOf (recordsOf store sourceH)))

/-- Python truthiness of an optional hash string: None and the empty string
both end the ancestor walks of the source. -/
def truthy : Option String → Option String
  | none => none
  | some s => if s = "" then none else some s

/-- Source function _collect_ancestors: the first-parent chain of a commit,
the commit itself included; a missing commit along the chain propagates as
a missing-object failure. -/
def collectAncestors (store : Store) : Nat → Option String → Except CafError (List String)
  | _, none => .ok []
  | 0, some _ => .error .outOfFuel
  | fuel + 1, some h =>
    match store.commits h with
    | none => .error (.missingObject h)
    | some c => (collectAncestors store fuel (truthy c.parent)).map (fun l => h :: l)

/-- Walk of the second chain inside get_common_ancestor: return the first
hash that was already collected from the first chain. -/
def walkFind (store : Store) (anc : List String) :
    Nat → Option String → Except CafError (Option String)
  | _, none => .ok none
  | 0, some _ => .error .outOfFuel
  | fuel + 1, some h =>
    if anc.contains h then .ok (some h)
    else
      match store.commits h with
      | none => .error (.missingObject h)
      | some c => walkFind store anc fuel (truthy c.parent)

/-- Source function get_common_ancestor: the lowest common ancestor of two
commits along first-parent chains, or none. -/
def getCommonAncestor (store : Store) (fuel : Nat) (h1 h2 : String) :
    Except CafError (Option String) :=
  if h1 = h2 then .ok (some h1)
  else do
    let anc ← collectAncestors store fuel (truthy (some h1))
    walkFind store anc fuel (truthy (some h2))

/-- First-parent chain of a commit materialized as a list: the finiteness
hypothesis the while loops of the source rely on. -/
inductive FPChain (store : Store) : Option String → List String → Prop where
  | nil : FPChain store none []
  | cons {h : String} {c : Commit} {l : List String} :
      store.commits h = some c → FPChain store (truthy c.parent) l →
      FPChain store (some h) (h :: l)

/-- Merge outcomes, mirroring the MergeResult enumeration of the source. -/
inductive MergeResult where
  | DISJOINT
  | UP_TO_DATE
  | FAST_FORWARD
  | THREE_WAY
deriving DecidableEq

/-- Repository state the merge driver can touch: the commit HEAD resolves
to (none in an empty repository) and the working directory contents. -/
structure RepoState where
  head : Option String
  workdir : List (String × String)
deriving DecidableEq

/-- Modelled from the spec: the merge driver Repository.merge, which lives
outside src. Resolve HEAD, classify the pair through the ancestry oracle
and dispatch; on three-way, merge the trees, and only on success create the
merge commit, advance HEAD and materialize the merged tree. Every failure
path returns the input state unchanged next to the propagated error. -/
def mergeDriver (store : Store) (fuel : Nat) (author : String) (timestamp : Int)
    (st : RepoState) (target : String) : RepoState × Except CafError MergeResult :=
  match st.head with
  | none => ({ st with head := some target }, .ok MergeResult.FAST_FORWARD)
  | some headH =>
    match getCommonAncestor store fuel headH target with
    | .error e => (st, .error e)
    | .ok none => (st, .ok MergeResult.DISJOINT)
    | .ok (some anc) =>
      if anc = target then (st, .ok MergeResult.UP_TO_DATE)
      else if anc = headH then
        match store.commits target with
        | none => (st, .error (.missingObject target))
        | some tc =>
          ({ head := some target, workdir := store.materialize tc.tree },
            .ok MergeResult.FAST_FORWARD)
      else
        match store.commits headH, store.commits target, store.commits anc with
        | some hc, some tc, some ac =>
          match mergeTreesF store fuel ac.tree hc.tree tc.tree with
          | .error e => (st, .error e)
          | .ok mergedTree =>
            let mc : Commit :=
              ⟨mergedTree, author, "Merge " ++ target, timestamp, some headH, some target⟩
            ({ head := some (store.hashCommit mc), workdir := store.materialize mergedTree },
              .ok MergeResult.THREE_WAY)
        | _, _, _ => (st, .error (.missingObject anc))

/-- Boolean form of the invariant that the name field of every record
duplicates its map key. -/
def namesOk (l : List (String × TreeRecord)) : Bool :=
  l.all (fun p => p.2.name == p.1)

/-- Store with no objects and constant collaborators, the base for the
concrete stores used in evaluations. -/
def storeEmpty : Store where
  trees := fun _ => none
  blobs := fun _ => none
  commits := fun _ => none
  hashTree := fun _ => "treehash"
  hashBlob := fun _ => "blobhash"
  hashCommit := fun _ => "commithash"
  decodeUtf8 := fun _ => none
  encodeUtf8 := fun _ => []
  threeMerge := fun _ _ _ => ""
  materialize := fun _ => []

/-- Trivial subtree merger standing in for the recursive call in the
statements about a single entry. -/
def recurOk : String → String → String → Except CafError String :=
  fun _ _ _ => .ok "subtree"

/-- Store holding three decodable blobs and one undecodable blob, with a
concatenating text merger. -/
def storeBlobs : Store := { storeEmpty with
  blobs := fun h =>
    if h = "b1" then some [1] else if h = "b2" then some [2]
    else if h = "b3" then some [3] else if h = "bad" then some [9] else none
  decodeUtf8 := fun l =>
    if l = [1] then some "A" else if l = [2] then some "B"
    else if l = [3] then some "C" else none
  threeMerge := fun s t b => s ++ t ++ b
  encodeUtf8 := fun s => s.toList.map Char.toNat
  hashBlob := fun _ => "newblob" }

/-- Store holding a small commit graph: a root and two children. -/
def storeCommits : Store := { storeEmpty with
  commits := fun h =>
    if h = "r" then some ⟨"t0", "au", "root", 0, none, none⟩
    else if h = "a" then some ⟨"t1", "au", "ca", 1, some "r", none⟩
    else if h = "b" then some ⟨"t2", "au", "cb", 2, some "r", none⟩
    else none }

/-- Store where three trees each hold a blob entry f with pairwise distinct
targets and the base blob object is absent from the store. -/
def storeMissingBlob : Store := { storeEmpty with
  trees := fun h =>
    if h = "tb" then some ⟨[("f", ⟨TreeRecordType.BLOB, "b0", "f"⟩)]⟩
    else if h = "tt" then some ⟨[("f", ⟨TreeRecordType.BLOB, "b1", "f"⟩)]⟩
    else if h = "ts" then some ⟨[("f", ⟨TreeRecordType.BLOB, "b2", "f"⟩)]⟩
    else none
  blobs := fun h => if h = "b1" then some [1] else if h = "b2" then some [2] else none
  decodeUtf8 := fun _ => some "text" }

/-- Store carrying a base commit with two children whose trees produce a
delete-versus-modify conflict at entry f. -/
def storeDriver : Store := { storeEmpty with
  commits := fun h =>
    if h = "c0" then some ⟨"t0", "au", "base", 0, none, none⟩
    else if h = "c1" then some ⟨"t1", "au", "head", 1, some "c0", none⟩
    else if h = "c2" then some ⟨"t2", "au", "target", 2, some "c0", none⟩
    else none
  trees := fun h =>
    if h = "t0" then some ⟨[("f", ⟨TreeRecordType.BLOB, "b0", "f"⟩)]⟩
    else if h = "t1" then some ⟨[]⟩
    else if h = "t2" then some ⟨[("f", ⟨TreeRecordType.BLOB, "b9", "f"⟩)]⟩
    else none }

/-- Store with two well-hashed trees: B empty and X holding one blob entry. -/
def storeTrees : Store := { storeEmpty with
  trees := fun h =>
    if h = "X" then some ⟨[("a", ⟨TreeRecordType.BLOB, "h1", "a"⟩)]⟩
    else if h = "B" then some ⟨[]⟩
    else none
  hashTree := fun l =>
    if l = [("a", (⟨TreeRecordType.BLOB, "h1", "a"⟩ : TreeRecord))] then "X"
    else if l = [] then "B"
    else "other" }

/-- Equality of a record with itself under the record equality of merge.py. -/
theorem recordEq_self (r : TreeRecord) : recordEq r r = true := by
  simp [recordEq]

/-- Characterization of the record equality of merge.py. -/
theorem recordEq_true_iff (a b : TreeRecord) :
    recordEq a b = true ↔ a.type = b.type ∧ a.hash = b.hash := by
  simp [recordEq]

/-- Lookup on a nonempty association list. -/
theorem lookupRec_cons (p : String × TreeRecord) (l : List (String × TreeRecord)) (k : String) :
    lookupRec (p :: l) k = if p.1 = k then some p.2 else lookupRec l k := by
  by_cases h : p.1 = k <;> simp [lookupRec, List.find?_cons, h]

/-- Lookup misses keys that are not in the list. -/
theorem lookupRec_eq_none {l : List (String × TreeRecord)} {k : String}
    (h : k ∉ keysOf l) : lookupRec l k = none := by
  induction l with
  | nil => rfl
  | cons p l ih =>
    rw [lookupRec_cons]
    simp only [keysOf, List.map_cons, List.mem_cons, not_or] at h
    rw [if_neg (fun hh => h.1 hh.symm)]
    exact ih h.2

/-- Lookup results are entries of the list under their key. -/
theorem lookupRec_mem {l : List (String × TreeRecord)} {k : String} {r : TreeRecord}
    (h : lookupRec l k = some r) : (k, r) ∈ l := by
  induction l with
  | nil => simp [lookupRec] at h
  | cons p l ih =>
    rw [lookupRec_cons] at h
    by_cases hp : p.1 = k
    · rw [if_pos hp] at h
      have h2 : p.2 = r := Option.some.inj h
      have hpe : p = (k, r) := by
        rcases p with ⟨p1, p2⟩
        simp only at hp h2
        rw [hp, h2]
      exact List.mem_cons.2 (Or.inl hpe.symm)
    · rw [if_neg hp] at h
      exact List.mem_cons_of_mem _ (ih h)

/-- Lookup succeeding means the key is in the key list. -/
theorem mem_keys_of_lookup {l : List (String × TreeRecord)} {k : String} {r : TreeRecord}
    (h : lookupRec l k = some r) : k ∈ keysOf l := by
  have := lookupRec_mem h
  exact List.mem_map.2 ⟨(k, r), this, rfl⟩

/-- Membership in the key list means lookup succeeds. -/
theorem lookup_isSome_of_mem_keys {l : List (String × TreeRecord)} {k : String}
    (h : k ∈ keysOf l) : (lookupRec l k).isSome := by
  induction l with
  | nil => simp [keysOf] at h
  | cons p l ih =>
    rw [lookupRec_cons]
    by_cases hp : p.1 = k
    · rw [if_pos hp]; rfl
    · rw [if_neg hp]
      simp only [keysOf, List.map_cons, List.mem_cons] at h
      rcases h with h | h
      · exact absurd h.symm hp
      · exact ih h

/-- Key membership is equivalent to lookup success. -/
theorem mem_keys_iff_lookup (l : List (String × TreeRecord)) (k : String) :
    k ∈ keysOf l ↔ (lookupRec l k).isSome := by
  constructor
  · exact lookup_isSome_of_mem_keys
  · intro h
    rcases Option.isSome_iff_exists.1 h with ⟨r, hr⟩
    exact mem_keys_of_lookup hr

/-- When the names invariant holds, every looked-up record carries its key
as its name. -/
theorem namesOk_lookup {l : List (String × TreeRecord)} {k : String} {r : TreeRecord}
    (hn : namesOk l = true) (h : lookupRec l k = some r) : r.name = k := by
  have hm := lookupRec_mem h
  have := (List.all_eq_true.1 hn) _ hm
  simpa using this

/-- Membership across key insertion. -/
theorem mem_insertKey (x a : String) (l : List String) :
    a ∈ insertKey x l ↔ a = x ∨ a ∈ l := by
  induction l with
  | nil => simp [insertKey]
  | cons y ys ih =>
    by_cases hxy : x = y
    · subst hxy
      have he : insertKey x (x :: ys) = x :: ys := by simp [insertKey]
      rw [he]
      simp only [List.mem_cons]
      tauto
    · by_cases hlt : x < y
      · have he : insertKey x (y :: ys) = x :: y :: ys := by simp [insertKey, hxy, hlt]
        rw [he]
        simp only [List.mem_cons]
      · have he : insertKey x (y :: ys) = y :: insertKey x ys := by simp [insertKey, hxy, hlt]
        rw [he]
        simp only [List.mem_cons, ih]
        tauto

/-- Key insertion keeps the key list strictly sorted. -/
theorem pairwise_insertKey (x : String) {l : List String}
    (h : l.Pairwise (· < ·)) : (insertKey x l).Pairwise (· < ·) := by
  induction l with
  | nil => simp [insertKey]
  | cons y ys ih =>
    rcases List.pairwise_cons.1 h with ⟨hy, hys⟩
    by_cases hxy : x = y
    · simpa [insertKey, hxy] using h
    · by_cases hlt : x < y
      · simp only [insertKey, if_neg hxy, if_pos hlt]
        refine List.pairwise_cons.2 ⟨?_, h⟩
        intro a ha
        rcases List.mem_cons.1 ha with rfl | ha
        · exact hlt
        · exact lt_trans hlt (hy a ha)
      · have hyx : y < x := by
          rcases lt_trichotomy x y with h1 | h1 | h1
          · exact absurd h1 hlt
          · exact absurd h1 hxy
          · exact h1
        simp only [insertKey, if_neg hxy, if_neg hlt]
        refine List.pairwise_cons.2 ⟨?_, ih hys⟩
        intro a ha
        rcases (mem_insertKey x a ys).1 ha with rfl | ha
        · exact hyx
        · exact hy a ha

/-- Sorting with deduplication produces a strictly sorted list. -/
theorem sortDedup_pairwise (l : List String) : (sortDedup l).Pairwise (· < ·) := by
  induction l with
  | nil => simp [sortDedup]
  | cons a l ih => exact pairwise_insertKey a ih

/-- Membership is preserved by sorting with deduplication. -/
theorem mem_sortDedup (a : String) (l : List String) : a ∈ sortDedup l ↔ a ∈ l := by
  induction l with
  | nil => simp [sortDedup]
  | cons b l ih =>
    show a ∈ insertKey b (sortDedup l) ↔ _
    rw [mem_insertKey, ih]
    simp

/-- Sorting with deduplication produces a duplicate-free list. -/
theorem sortDedup_nodup (l : List String) : (sortDedup l).Nodup :=
  (sortDedup_pairwise l).imp ne_of_lt

/-- Strictly sorted lists with the same members are equal. -/
theorem eq_of_pairwise_mem_iff :
    ∀ {l₁ l₂ : List String}, l₁.Pairwise (· < ·) → l₂.Pairwise (· < ·) →
      (∀ a, a ∈ l₁ ↔ a ∈ l₂) → l₁ = l₂
  | [], [], _, _, _ => rfl
  | [], b :: t₂, _, _, hm => absurd ((hm b).2 (List.mem_cons_self b t₂)) (List.not_mem_nil b)
  | a :: t₁, [], _, _, hm => absurd ((hm a).1 (List.mem_cons_self a t₁)) (List.not_mem_nil a)
  | a :: t₁, b :: t₂, h₁, h₂, hm => by
    rcases List.pairwise_cons.1 h₁ with ⟨ha, ht₁⟩
    rcases List.pairwise_cons.1 h₂ with ⟨hb, ht₂⟩
    have hab : a = b := by
      rcases List.mem_cons.1 ((hm a).1 (List.mem_cons_self a t₁)) with h | h
      · exact h
      · have hba : b < a := hb a h
        rcases List.mem_cons.1 ((hm b).2 (List.mem_cons_self b t₂)) with h3 | h3
        · exact h3.symm
        · exact absurd (ha b h3) (lt_asymm hba)
    subst hab
    have htail : ∀ x, x ∈ t₁ ↔ x ∈ t₂ := by
      intro x
      constructor
      · intro hx
        rcases List.mem_cons.1 ((hm x).1 (List.mem_cons_of_mem _ hx)) with h | h
        · exact absurd (h ▸ ha x hx) (lt_irrefl a)
        · exact h
      · intro hx
        rcases List.mem_cons.1 ((hm x).2 (List.mem_cons_of_mem _ hx)) with h | h
        · exact absurd (h ▸ hb x hx) (lt_irrefl a)
        · exact h
    rw [eq_of_pairwise_mem_iff ht₁ ht₂ htail]

/-- Lists with the same members sort and deduplicate to the same list. -/
theorem sortDedup_congr {l₁ l₂ : List String} (hm : ∀ a, a ∈ l₁ ↔ a ∈ l₂) :
    sortDedup l₁ = sortDedup l₂ := by
  refine eq_of_pairwise_mem_iff (sortDedup_pairwise l₁) (sortDedup_pairwise l₂) ?_
  intro a
  rw [mem_sortDedup, mem_sortDedup]
  exact hm a

/-- Canonical record lists agree whenever the lookup functions agree. -/
theorem canonRecords_congr {l₁ l₂ : List (String × TreeRecord)}
    (h : ∀ k, lookupRec l₁ k = lookupRec l₂ k) : canonRecords l₁ = canonRecords l₂ := by
  unfold canonRecords
  have hkeys : sortDedup (keysOf l₁) = sortDedup (keysOf l₂) := by
    refine sortDedup_congr ?_
    intro a
    rw [mem_keys_iff_lookup, mem_keys_iff_lookup, h a]
  rw [hkeys]
  have hfun : (fun k => (lookupRec l₁ k).map (fun r => (k, r))) =
      (fun k => (lookupRec l₂ k).map (fun r => (k, r))) := by
    funext k
    rw [h k]
  rw [hfun]

/-- Full equality of records from equality of all three fields. -/
theorem recordExt {a b : TreeRecord} (h1 : a.type = b.type) (h2 : a.hash = b.hash)
    (h3 : a.name = b.name) : a = b := by
  cases a
  cases b
  simp only [TreeRecord.mk.injEq]
  exact ⟨h1, h2, h3⟩

/-- Lookup in the association list built by pairing a duplicate-free key
list with an optional value function. -/
theorem lookup_filterMap_keys (f : String → Option TreeRecord) :
    ∀ ks : List String, ks.Nodup → ∀ k,
      lookupRec (ks.filterMap (fun x => (f x).map (fun r => (x, r)))) k =
        if k ∈ ks then f k else none := by
  intro ks
  induction ks with
  | nil =>
    intro _ k
    simp [lookupRec]
  | cons a ks ih =>
    intro hnd k
    rcases List.nodup_cons.1 hnd with ⟨ha, hnd2⟩
    by_cases hk : k = a
    · subst hk
      cases hfa : f k with
      | none =>
        simp only [List.filterMap_cons, hfa, Option.map_none']
        rw [ih hnd2 k, if_neg ha, if_pos (List.mem_cons_self k ks)]
      | some r =>
        simp only [List.filterMap_cons, hfa, Option.map_some']
        rw [lookupRec_cons, if_pos rfl, if_pos (List.mem_cons_self k ks)]
    · cases hfa : f a with
      | none =>
        simp only [List.filterMap_cons, hfa, Option.map_none']
        rw [ih hnd2 k]
        simp [List.mem_cons, hk]
      | some r =>
        simp only [List.filterMap_cons, hfa, Option.map_some']
        rw [lookupRec_cons]
        have hne : ¬((a, r).1 = k) := fun hh => hk (by simpa using hh.symm)
        rw [if_neg hne, ih hnd2 k]
        simp [List.mem_cons, hk]

/-- When every entry of the key list merges without error, the merged dict
is the pairing of the key list with the per-entry results. -/
theorem mergeRecordsGo_ok (store : Store)
    (recur : String → String → String → Except CafError String)
    (bR tR sR : List (String × TreeRecord)) (f : String → Option TreeRecord) :
    ∀ ks : List String,
      (∀ k ∈ ks, mergeEntryWith store recur k (lookupRec bR k) (lookupRec tR k)
        (lookupRec sR k) = Except.ok (f k)) →
      mergeRecordsGoWith store recur bR tR sR ks =
        Except.ok (ks.filterMap (fun k => (f k).map (fun r => (k, r)))) := by
  intro ks
  induction ks with
  | nil =>
    intro _
    rfl
  | cons k ks ih =>
    intro hf
    have hk := hf k (List.mem_cons_self k ks)
    have hrest := ih (fun x hx => hf x (List.mem_cons_of_mem _ hx))
    cases hfk : f k with
    | none =>
      rw [hfk] at hk
      simp only [mergeRecordsGoWith, hk, hrest, hfk, List.filterMap_cons, Option.map_none']
      rfl
    | some r =>
      rw [hfk] at hk
      simp only [mergeRecordsGoWith, hk, hrest, hfk, List.filterMap_cons, Option.map_some']
      rfl

/-- Merging an entry against an identical base and target yields the source
entry unchanged. -/
theorem mergeEntry_diagBase (store : Store)
    (recur : String → String → String → Except CafError String) (k : String)
    (o s : Option TreeRecord) : mergeEntryWith store recur k o o s = Except.ok s := by
  cases o with
  | none =>
    cases s with
    | none => rfl
    | some rs => rfl
  | some rb =>
    cases s with
    | none => simp [mergeEntryWith, recordEq_self]
    | some rs =>
      cases hsb : recordEq rs rb <;> simp [mergeEntryWith, hsb, recordEq_self]

/-- Merging an entry against an identical base and source yields the target
entry unchanged, provided names duplicate the key. -/
theorem mergeEntry_sideUnchanged (store : Store)
    (recur : String → String → String → Except CafError String) (k : String)
    (o t : Option TreeRecord)
    (hbn : ∀ r, o = some r → r.name = k) (htn : ∀ r, t = some r → r.name = k) :
    mergeEntryWith store recur k o t o = Except.ok t := by
  cases o with
  | none =>
    cases t with
    | none => rfl
    | some rt => rfl
  | some rb =>
    cases t with
    | none => simp [mergeEntryWith, recordEq_self]
    | some rt =>
      by_cases hbt : recordEq rb rt = true
      · rcases (recordEq_true_iff rb rt).1 hbt with ⟨hty, hh⟩
        have hbeq : rb = rt := recordExt hty hh ((hbn rb rfl).trans (htn rt rfl).symm)
        simp [mergeEntryWith, hbeq, recordEq_self]
      · have hbt2 : recordEq rb rt = false := by
          cases h : recordEq rb rt
          · rfl
          · exact absurd h hbt
        simp [mergeEntryWith, hbt2, recordEq_self]

/-- Unfolding of the successor case of the fueled tree merge. -/
theorem mergeTreesF_succ (store : Store) (fuel : Nat) (bH tH sH : String) :
    mergeTreesF store (fuel + 1) bH tH sH =
      (mergeTreesRecords store fuel bH tH sH).map
        (fun m => store.hashTree (canonRecords m)) := rfl

/-- When every entry of the union merges to the lookup of a reference dict
whose keys all occur in the union, the merge returns the hash of the
canonical form of that reference dict. -/
theorem mergeTrees_as_lookup (store : Store) (fuel : Nat) (bH tH sH : String)
    (m : List (String × TreeRecord))
    (hf : ∀ k, mergeEntryWith store (mergeTreesF store fuel) k
        (lookupRec (recordsOf store bH) k) (lookupRec (recordsOf store tH) k)
        (lookupRec (recordsOf store sH) k) = Except.ok (lookupRec m k))
    (hsub : ∀ k, k ∈ keysOf m → k ∈ keysOf (recordsOf store bH) ++
        keysOf (recordsOf store tH) ++ keysOf (recordsOf store sH)) :
    mergeTreesF store (fuel + 1) bH tH sH = Except.ok (store.hashTree (canonRecords m)) := by
  have hgo := mergeRecordsGo_ok store (mergeTreesF store fuel)
    (recordsOf store bH) (recordsOf store tH) (recordsOf store sH)
    (fun k => lookupRec m k)
    (sortDedup (keysOf (recordsOf store bH) ++ keysOf (recordsOf store tH) ++
      keysOf (recordsOf store sH)))
    (fun k _ => hf k)
  have hcanon : canonRecords ((sortDedup (keysOf (recordsOf store bH) ++
      keysOf (recordsOf store tH) ++ keysOf (recordsOf store sH))).filterMap
        (fun k => (lookupRec m k).map (fun r => (k, r)))) = canonRecords m := by
    apply canonRecords_congr
    intro k
    rw [lookup_filterMap_keys (fun k => lookupRec m k) _ (sortDedup_nodup _) k]
    by_cases hk : k ∈ sortDedup (keysOf (recordsOf store bH) ++
        keysOf (recordsOf store tH) ++ keysOf (recordsOf store sH))
    · rw [if_pos hk]
    · rw [if_neg hk]
      refine (lookupRec_eq_none ?_).symm
      intro hkm
      exact hk ((mem_sortDedup _ _).2 (hsub k hkm))
  rw [mergeTreesF_succ]
  simp only [mergeTreesRecords]
  rw [hgo]
  simp only [Except.map]
  rw [hcanon]

/-- C1: for stored trees B and X that satisfy the data-model invariants
(their canonical records hash back to their OID and every record name
duplicates its key), merging with one side unchanged returns the OID of the
other side and raises no conflict: merge_trees(B, X, B) = X and
merge_trees(B, B, X) = X; in particular merge_trees(X, X, X) = X. -/
theorem mergeTrees_one_side_unchanged (store : Store) (fuel : Nat) (B X : String)
    (tB tX : Tree)
    (hB : store.trees B = some tB) (hX : store.trees X = some tX)
    (hhX : store.hashTree (canonRecords tX.records) = X)
    (nB : namesOk tB.records = true) (nX : namesOk tX.records = true) :
    mergeTreesF store (fuel + 1) B X B = Except.ok X ∧
    mergeTreesF store (fuel + 1) B B X = Except.ok X ∧
    mergeTreesF store (fuel + 1) X X X = Except.ok X := by
  have hrB : recordsOf store B = tB.records := by simp [recordsOf, hB]
  have hrX : recordsOf store X = tX.records := by simp [recordsOf, hX]
  refine ⟨?_, ?_, ?_⟩
  · have hf : ∀ k, mergeEntryWith store (mergeTreesF store fuel) k
        (lookupRec (recordsOf store B) k) (lookupRec (recordsOf store X) k)
        (lookupRec (recordsOf store B) k) = Except.ok (lookupRec tX.records k) := by
      intro k
      rw [hrB, hrX]
      exact mergeEntry_sideUnchanged store _ k (lookupRec tB.records k)
        (lookupRec tX.records k) (fun r hr => namesOk_lookup nB hr)
        (fun r hr => namesOk_lookup nX hr)
    have hsub : ∀ k, k ∈ keysOf tX.records → k ∈ keysOf (recordsOf store B) ++
        keysOf (recordsOf store X) ++ keysOf (recordsOf store B) := by
      intro k hk
      rw [hrB, hrX]
      exact List.mem_append.2 (Or.inl (List.mem_append.2 (Or.inr hk)))
    have h := mergeTrees_as_lookup store fuel B X B tX.records hf hsub
    rw [h, hhX]
  · have hf : ∀ k, mergeEntryWith store (mergeTreesF store fuel) k
        (lookupRec (recordsOf store B) k) (lookupRec (recordsOf store B) k)
        (lookupRec (recordsOf store X) k) = Except.ok (lookupRec tX.records k) := by
      intro k
      rw [hrX]
      exact mergeEntry_diagBase store _ k (lookupRec (recordsOf store B) k)
        (lookupRec tX.records k)
    have hsub : ∀ k, k ∈ keysOf tX.records → k ∈ keysOf (recordsOf store B) ++
        keysOf (recordsOf store B) ++ keysOf (recordsOf store X) := by
      intro k hk
      rw [hrX]
      exact List.mem_append.2 (Or.inr hk)
    have h := mergeTrees_as_lookup store fuel B B X tX.records hf hsub
    rw [h, hhX]
  · have hf : ∀ k, mergeEntryWith store (mergeTreesF store fuel) k
        (lookupRec (recordsOf store X) k) (lookupRec (recordsOf store X) k)
        (lookupRec (recordsOf store X) k) = Except.ok (lookupRec tX.records k) := by
      intro k
      rw [hrX]
      exact mergeEntry_diagBase store _ k (lookupRec tX.records k) (lookupRec tX.records k)
    have hsub : ∀ k, k ∈ keysOf tX.records → k ∈ keysOf (recordsOf store X) ++
        keysOf (recordsOf store X) ++ keysOf (recordsOf store X) := by
      intro k hk
      rw [hrX]
      exact List.mem_append.2 (Or.inr hk)
    have h := mergeTrees_as_lookup store fuel X X X tX.records hf hsub
    rw [h, hhX]

/-- Concrete run of the one-side-unchanged theorem on a stored empty tree B
and a stored one-entry tree X. -/
theorem mergeTrees_one_side_unchanged_witness :
    mergeTreesF storeTrees 1 "B" "X" "B" = Except.ok "X" ∧
    mergeTreesF storeTrees 1 "B" "B" "X" = Except.ok "X" ∧
    mergeTreesF storeTrees 1 "X" "X" "X" = Except.ok "X" :=
  mergeTrees_one_side_unchanged storeTrees 0 "B" "X" ⟨[]⟩
    ⟨[("a", ⟨TreeRecordType.BLOB, "h1", "a"⟩)]⟩ rfl rfl rfl rfl rfl

/-- C3: with the base record present and exactly one side present, the
entry is dropped when the surviving side equals the base, a delete-versus-
modify conflict is raised when it differs, and with both sides absent the
entry is dropped without conflict. -/
theorem mergeEntry_delete_cases (store : Store)
    (recur : String → String → String → Except CafError String)
    (name : String) (b r : TreeRecord) :
    (recordEq r b = true →
      mergeEntryWith store recur name (some b) none (some r) = Except.ok none ∧
      mergeEntryWith store recur name (some b) (some r) none = Except.ok none) ∧
    (recordEq r b = false →
      mergeEntryWith store recur name (some b) none (some r) =
        Except.error (CafError.mergeConflict
          ("conflict: one deleted and one changed: " ++ name)) ∧
      mergeEntryWith store recur name (some b) (some r) none =
        Except.error (CafError.mergeConflict
          ("conflict: one deleted and one changed: " ++ name))) ∧
    mergeEntryWith store recur name (some b) none none = Except.ok none := by
  refine ⟨fun h => ⟨?_, ?_⟩, fun h => ⟨?_, ?_⟩, rfl⟩ <;> simp [mergeEntryWith, h]

/-- Concrete run of the delete cases: surviving side equal to the base
drops the entry, surviving side differing raises the conflict. -/
theorem mergeEntry_delete_cases_witness :
    mergeEntryWith storeEmpty recurOk "f" (some ⟨TreeRecordType.BLOB, "h1", "f"⟩) none
        (some ⟨TreeRecordType.BLOB, "h1", "f"⟩) = Except.ok none ∧
    mergeEntryWith storeEmpty recurOk "f" (some ⟨TreeRecordType.BLOB, "h1", "f"⟩) none
        (some ⟨TreeRecordType.BLOB, "h2", "f"⟩) =
      Except.error (CafError.mergeConflict ("conflict: one deleted and one changed: " ++ "f")) :=
  ⟨((mergeEntry_delete_cases storeEmpty recurOk "f" ⟨TreeRecordType.BLOB, "h1", "f"⟩
      ⟨TreeRecordType.BLOB, "h1", "f"⟩).1 (by decide)).1,
    ((mergeEntry_delete_cases storeEmpty recurOk "f" ⟨TreeRecordType.BLOB, "h1", "f"⟩
      ⟨TreeRecordType.BLOB, "h2", "f"⟩).2.1 (by decide)).1⟩

/-- C9: with the base record absent, a record present on exactly one side
is taken, equal records on both sides are taken, and differing records on
both sides raise an added-differently conflict. -/
theorem mergeEntry_base_absent (store : Store)
    (recur : String → String → String → Except CafError String)
    (name : String) (t s : TreeRecord) :
    mergeEntryWith store recur name none (some t) none = Except.ok (some t) ∧
    mergeEntryWith store recur name none none (some s) = Except.ok (some s) ∧
    (recordEq t s = true →
      mergeEntryWith store recur name none (some t) (some s) = Except.ok (some t)) ∧
    (recordEq t s = false →
      mergeEntryWith store recur name none (some t) (some s) =
        Except.error (CafError.mergeConflict ("conflict: added different files: " ++ name))) := by
  refine ⟨rfl, rfl, fun h => ?_, fun h => ?_⟩ <;> simp [mergeEntryWith, h]

/-- Concrete run of the base-absent cases: one-sided additions are taken
and differing two-sided additions conflict. -/
theorem mergeEntry_base_absent_witness :
    mergeEntryWith storeEmpty recurOk "f" none (some ⟨TreeRecordType.BLOB, "h1", "f"⟩) none =
      Except.ok (some ⟨TreeRecordType.BLOB, "h1", "f"⟩) ∧
    mergeEntryWith storeEmpty recurOk "f" none (some ⟨TreeRecordType.BLOB, "h1", "f"⟩)
        (some ⟨TreeRecordType.BLOB, "h2", "f"⟩) =
      Except.error (CafError.mergeConflict ("conflict: added different files: " ++ "f")) :=
  ⟨(mergeEntry_base_absent storeEmpty recurOk "f" ⟨TreeRecordType.BLOB, "h1", "f"⟩
      ⟨TreeRecordType.BLOB, "h1", "f"⟩).1,
    (mergeEntry_base_absent storeEmpty recurOk "f" ⟨TreeRecordType.BLOB, "h1", "f"⟩
      ⟨TreeRecordType.BLOB, "h2", "f"⟩).2.2.2 (by decide)⟩

/-- C4: with all three records present, the sides unequal to each other and
neither side equal to the base, three tree kinds recurse through the
subtree merger and wrap the result as a tree record under the entry name,
three blob kinds delegate to the blob text merger, and any other kind
combination raises a type-mismatch conflict. -/
theorem mergeEntry_both_modified (store : Store)
    (recur : String → String → String → Except CafError String)
    (name : String) (b t s : TreeRecord)
    (hst : recordEq s t = false) (hsb : recordEq s b = false) (htb : recordEq t b = false) :
    (b.type = TreeRecordType.TREE → t.type = TreeRecordType.TREE →
      s.type = TreeRecordType.TREE →
      mergeEntryWith store recur name (some b) (some t) (some s) =
        (recur b.hash t.hash s.hash).map
          (fun h => some ⟨TreeRecordType.TREE, h, name⟩)) ∧
    (b.type = TreeRecordType.BLOB → t.type = TreeRecordType.BLOB →
      s.type = TreeRecordType.BLOB →
      mergeEntryWith store recur name (some b) (some t) (some s) =
        mergeBlobEntry store name b t s) ∧
    (¬(b.type = t.type ∧ t.type = s.type) →
      mergeEntryWith store recur name (some b) (some t) (some s) =
        Except.error (CafError.mergeConflict ("different types of files: " ++ name))) := by
  refine ⟨fun h1 h2 h3 => ?_, fun h1 h2 h3 => ?_, fun hne => ?_⟩
  · simp [mergeEntryWith, hst, hsb, htb, h1, h2, h3]
  · simp [mergeEntryWith, hst, hsb, htb, h1, h2, h3]
  · cases hb : b.type <;> cases ht : t.type <;> cases hs : s.type <;>
      simp_all [mergeEntryWith, hst, hsb, htb]

/-- Concrete run of the type-mismatch case: a blob against two trees with
no side matching the base conflicts. -/
theorem mergeEntry_both_modified_witness :
    mergeEntryWith storeEmpty recurOk "f" (some ⟨TreeRecordType.TREE, "x", "f"⟩)
        (some ⟨TreeRecordType.TREE, "y", "f"⟩) (some ⟨TreeRecordType.BLOB, "z", "f"⟩) =
      Except.error (CafError.mergeConflict ("different types of files: " ++ "f")) :=
  (mergeEntry_both_modified storeEmpty recurOk "f" ⟨TreeRecordType.TREE, "x", "f"⟩
    ⟨TreeRecordType.TREE, "y", "f"⟩ ⟨TreeRecordType.BLOB, "z", "f"⟩
    (by decide) (by decide) (by decide)).2.2 (by decide)

/-- C5: the blob three-way merge conflicts when any of the three blobs
fails to decode as UTF-8, conflicts when the diff3 output carries all three
marker tokens, and otherwise persists the merged text as a new blob whose
OID the merged entry carries. -/
theorem mergeBlob_three_way (store : Store) (name : String) (b t s : TreeRecord) :
    ((readBlobText store b.hash = Except.error CafError.decodeError ∨
      readBlobText store t.hash = Except.error CafError.decodeError ∨
      readBlobText store s.hash = Except.error CafError.decodeError) →
      mergeBlobEntry store name b t s =
        Except.error (CafError.mergeConflict
          ("could not decode as UTF-8 for auto-merge file: " ++ name))) ∧
    (∀ bt tt st, readBlobText store b.hash = Except.ok bt →
      readBlobText store t.hash = Except.ok tt → readBlobText store s.hash = Except.ok st →
      (hasConflictMarkers (store.threeMerge st tt bt) = true →
        mergeBlobEntry store name b t s =
          Except.error (CafError.mergeConflict ("conflict in file: " ++ name))) ∧
      (hasConflictMarkers (store.threeMerge st tt bt) = false →
        mergeBlobEntry store name b t s =
          Except.ok (some ⟨TreeRecordType.BLOB,
            saveBlobText store (store.threeMerge st tt bt), name⟩))) := by
  constructor
  · intro h
    cases hb : readBlobText store b.hash <;> cases ht : readBlobText store t.hash <;>
      cases hs : readBlobText store s.hash <;>
      simp only [mergeBlobEntry, hb, ht, hs] <;>
      rcases h with h | h | h <;> simp_all
  · intro bt tt st hb ht hs
    constructor
    · intro hm
      simp [mergeBlobEntry, hb, ht, hs, hm]
    · intro hm
      simp [mergeBlobEntry, hb, ht, hs, hm]

/-- Concrete run of the blob merge: three decodable blobs merge to a new
blob object without conflict. -/
theorem mergeBlob_three_way_witness :
    mergeBlobEntry storeBlobs "f" ⟨TreeRecordType.BLOB, "b1", "f"⟩
        ⟨TreeRecordType.BLOB, "b2", "f"⟩ ⟨TreeRecordType.BLOB, "b3", "f"⟩ =
      Except.ok (some ⟨TreeRecordType.BLOB, "newblob", "f"⟩) :=
  ((mergeBlob_three_way storeBlobs "f" ⟨TreeRecordType.BLOB, "b1", "f"⟩
    ⟨TreeRecordType.BLOB, "b2", "f"⟩ ⟨TreeRecordType.BLOB, "b3", "f"⟩).2
    "A" "B" "C" rfl rfl rfl).2 (by decide)

/-- C6 failing input: three blob records that all differ, with the base
blob object absent from the store. The except-Exception block of
merge_trees catches the missing-object failure of the store and reraises
it as a merge conflict labelled as a decode failure, instead of letting it
propagate as the spec requires. -/
theorem mergeTrees_missing_blob_reclassified :
    mergeTreesF storeMissingBlob 1 "tb" "tt" "ts" =
      Except.error (CafError.mergeConflict
        ("could not decode as UTF-8 for auto-merge file: " ++ "f")) := rfl

/-- Booleans that are not true are false. -/
theorem bool_eq_false {b : Bool} (h : ¬b = true) : b = false := by
  cases b
  · rfl
  · exact absurd rfl h

/-- Successful blob auto-merge produces a record named after the entry. -/
theorem mergeBlob_ok_name {store : Store} {name : String} {b t s : TreeRecord} {r : TreeRecord}
    (h : mergeBlobEntry store name b t s = Except.ok (some r)) : r.name = name := by
  unfold mergeBlobEntry at h
  split at h
  · dsimp only at h
    split at h
    · exact absurd h (by simp)
    · injection h with h2
      injection h2 with h3
      rw [← h3]
  · exact absurd h (by simp)

/-- Successful per-entry merge produces a record named after the entry,
provided the input records are named after the entry. -/
theorem mergeEntry_ok_name {store : Store}
    {recur : String → String → String → Except CafError String} {k : String}
    {b t s : Option TreeRecord} {r : TreeRecord}
    (hb : ∀ x, b = some x → x.name = k) (ht : ∀ x, t = some x → x.name = k)
    (hs : ∀ x, s = some x → x.name = k)
    (h : mergeEntryWith store recur k b t s = Except.ok (some r)) : r.name = k := by
  cases b with
  | none =>
    cases t with
    | none =>
      cases s with
      | none => simp [mergeEntryWith] at h
      | some rs =>
        simp [mergeEntryWith] at h
        rw [← h]
        exact hs rs rfl
    | some rt =>
      cases s with
      | none =>
        simp [mergeEntryWith] at h
        rw [← h]
        exact ht rt rfl
      | some rs =>
        by_cases he : recordEq rt rs = true
        · simp [mergeEntryWith, he] at h
          rw [← h]
          exact ht rt rfl
        · simp [mergeEntryWith, he] at h
  | some rb =>
    cases t with
    | none =>
      cases s with
      | none => simp [mergeEntryWith] at h
      | some rs =>
        by_cases he : recordEq rs rb = true <;> simp [mergeEntryWith, he] at h
    | some rt =>
      cases s with
      | none =>
        by_cases he : recordEq rt rb = true <;> simp [mergeEntryWith, he] at h
      | some rs =>
        by_cases h1 : recordEq rs rt = true
        · simp [mergeEntryWith, h1] at h
          rw [← h]
          exact hs rs rfl
        · by_cases h2 : recordEq rs rb = true
          · simp [mergeEntryWith, h1, h2] at h
            rw [← h]
            exact ht rt rfl
          · by_cases h3 : recordEq rt rb = true
            · simp [mergeEntryWith, h1, h2, h3] at h
              rw [← h]
              exact hs rs rfl
            · have h1f := bool_eq_false h1
              have h2f := bool_eq_false h2
              have h3f := bool_eq_false h3
              by_cases h4 : rb.type = TreeRecordType.TREE ∧ rt.type = TreeRecordType.TREE ∧
                  rs.type = TreeRecordType.TREE
              · obtain ⟨hb4, ht4, hs4⟩ := h4
                simp [mergeEntryWith, h1f, h2f, h3f, hb4, ht4, hs4] at h
                cases hr : recur rb.hash rt.hash rs.hash with
                | error e =>
                  rw [hr] at h
                  exact absurd h (by simp [Except.map])
                | ok v =>
                  rw [hr] at h
                  have h5 : some (⟨TreeRecordType.TREE, v, k⟩ : TreeRecord) = some r := by
                    simpa [Except.map] using h
                  have h6 := Option.some.inj h5
                  rw [← h6]
              · by_cases h5 : rb.type = TreeRecordType.BLOB ∧ rt.type = TreeRecordType.BLOB ∧
                    rs.type = TreeRecordType.BLOB
                · obtain ⟨hb5, ht5, hs5⟩ := h5
                  simp [mergeEntryWith, h1f, h2f, h3f, hb5, ht5, hs5] at h
                  exact mergeBlob_ok_name h
                · cases hbt : rb.type <;> cases htt : rt.type <;> cases hst2 : rs.type <;>
                    simp_all [mergeEntryWith, h1f, h2f, h3f]

/-- Every entry of the merged dict carries a key from the processed key
list and a record named after its key, provided the three input dicts
satisfy the names invariant. -/
theorem mergeRecordsGo_names (store : Store)
    (recur : String → String → String → Except CafError String)
    (bR tR sR : List (String × TreeRecord))
    (nb : namesOk bR = true) (nt : namesOk tR = true) (ns : namesOk sR = true) :
    ∀ ks L, mergeRecordsGoWith store recur bR tR sR ks = Except.ok L →
      ∀ k r, (k, r) ∈ L → k ∈ ks ∧ r.name = k := by
  intro ks
  induction ks with
  | nil =>
    intro L h k r hkr
    injection h with h2
    rw [← h2] at hkr
    exact absurd hkr (List.not_mem_nil _)
  | cons a ks ih =>
    intro L h k r hkr
    simp only [mergeRecordsGoWith] at h
    cases he : mergeEntryWith store recur a (lookupRec bR a) (lookupRec tR a)
        (lookupRec sR a) with
    | error e =>
      rw [he] at h
      simp [Bind.bind, Except.bind] at h
    | ok entry =>
      rw [he] at h
      cases hrest : mergeRecordsGoWith store recur bR tR sR ks with
      | error e =>
        rw [hrest] at h
        simp [Bind.bind, Except.bind] at h
      | ok rest =>
        rw [hrest] at h
        cases entry with
        | none =>
          simp only [Bind.bind, Except.bind] at h
          injection h with h2
          rw [← h2] at hkr
          rcases ih rest hrest k r hkr with ⟨hk, hn⟩
          exact ⟨List.mem_cons_of_mem _ hk, hn⟩
        | some r0 =>
          simp only [Bind.bind, Except.bind] at h
          injection h with h2
          rw [← h2] at hkr
          rcases List.mem_cons.1 hkr with heq | hmem
          · have hk : k = a := congrArg Prod.fst heq
            have hr : r = r0 := congrArg Prod.snd heq
            subst hk
            subst hr
            refine ⟨List.mem_cons_self _ _, ?_⟩
            exact mergeEntry_ok_name (fun x hx => namesOk_lookup nb hx)
              (fun x hx => namesOk_lookup nt hx) (fun x hx => namesOk_lookup ns hx) he
          · rcases ih rest hrest k r hmem with ⟨hk, hn⟩
            exact ⟨List.mem_cons_of_mem _ hk, hn⟩

/-- C10: every entry of a dict produced by merge_trees has a key drawn from
the union of the entry names of the three input trees, and the record under
each key is named after that key, subtree recursion and blob auto-merge
included, provided the input trees satisfy the names invariant. -/
theorem mergeTrees_entry_names_invariant (store : Store) (fuel : Nat) (bH tH sH : String)
    (L : List (String × TreeRecord))
    (nb : namesOk (recordsOf store bH) = true) (nt : namesOk (recordsOf store tH) = true)
    (ns : namesOk (recordsOf store sH) = true)
    (h : mergeTreesRecords store fuel bH tH sH = Except.ok L) :
    ∀ k r, (k, r) ∈ L →
      (k ∈ keysOf (recordsOf store bH) ∨ k ∈ keysOf (recordsOf store tH) ∨
        k ∈ keysOf (recordsOf store sH)) ∧ r.name = k := by
  intro k r hkr
  have h2 : mergeRecordsGoWith store (mergeTreesF store fuel) (recordsOf store bH)
      (recordsOf store tH) (recordsOf store sH)
      (sortDedup (keysOf (recordsOf store bH) ++ keysOf (recordsOf store tH) ++
        keysOf (recordsOf store sH))) = Except.ok L := h
  rcases mergeRecordsGo_names store (mergeTreesF store fuel) (recordsOf store bH)
      (recordsOf store tH) (recordsOf store sH) nb nt ns _ L h2 k r hkr with ⟨hk, hn⟩
  refine ⟨?_, hn⟩
  have hk2 := (mem_sortDedup _ _).1 hk
  rcases List.mem_append.1 hk2 with h1 | h1
  · rcases List.mem_append.1 h1 with h3 | h3
    · exact Or.inl h3
    · exact Or.inr (Or.inl h3)
  · exact Or.inr (Or.inr h1)

/-- Membership characterization of the boolean contains on hash lists. -/
theorem contains_true_iff (l : List String) (x : String) : l.contains x = true ↔ x ∈ l :=
  List.elem_iff

/-- First-parent chains are unique for a given starting point. -/
theorem fpchain_det {store : Store} {o : Option String} {L₁ L₂ : List String}
    (h₁ : FPChain store o L₁) (h₂ : FPChain store o L₂) : L₁ = L₂ := by
  induction h₁ generalizing L₂ with
  | nil =>
    cases h₂
    rfl
  | cons hc hrest ih =>
    cases h₂ with
    | cons hc2 hrest2 =>
      have hcc := Option.some.inj (hc.symm.trans hc2)
      subst hcc
      rw [ih hrest2]

/-- Every member of a first-parent chain heads a suffix of the chain that
is itself the first-parent chain of that member. -/
theorem fpchain_suffix {store : Store} {o : Option String} {L : List String}
    (h : FPChain store o L) : ∀ {x : String}, x ∈ L →
      ∃ P S, L = P ++ x :: S ∧ FPChain store (some x) (x :: S) := by
  induction h with
  | nil =>
    intro x hx
    exact absurd hx (List.not_mem_nil _)
  | @cons hh c l hc hrest ih =>
    intro x hx
    rcases List.mem_cons.1 hx with heq | hx2
    · subst heq
      exact ⟨[], l, rfl, FPChain.cons hc hrest⟩
    · rcases ih hx2 with ⟨P, S, hps, hchain⟩
      refine ⟨hh :: P, S, ?_, hchain⟩
      rw [List.cons_append, hps]

/-- Search is unchanged by swapping the predicate for one that agrees on
the members of the list. -/
theorem find?_congr_mem {p q : String → Bool} :
    ∀ {l : List String}, (∀ x ∈ l, p x = q x) → l.find? p = l.find? q := by
  intro l
  induction l with
  | nil =>
    intro _
    rfl
  | cons a l ih =>
    intro h
    rw [List.find?_cons, List.find?_cons, h a (List.mem_cons_self a l)]
    cases q a
    · exact ih (fun x hx => h x (List.mem_cons_of_mem _ hx))
    · rfl

/-- Search over an append whose left part fails the predicate finds the
head of the right part when it satisfies the predicate. -/
theorem find?_append_first {q : String → Bool} :
    ∀ (P : List String) (x : String) (S : List String),
      (∀ p ∈ P, q p = false) → q x = true → (P ++ x :: S).find? q = some x := by
  intro P x S
  induction P with
  | nil =>
    intro _ hx
    simp only [List.nil_append, List.find?_cons, hx]
  | cons a P ih =>
    intro hP hx
    have ha := hP a (List.mem_cons_self a P)
    simp only [List.cons_append, List.find?_cons, ha]
    exact ih (fun p hp => hP p (List.mem_cons_of_mem _ hp)) hx

/-- Symmetry core: the first hit of one first-parent chain in the other is
the same hash in either direction, for duplicate-free chains of the same
store. -/
theorem find_symm (store : Store) {ob : Option String} {Lb : List String}
    (hb : FPChain store ob Lb) :
    ∀ {oa : Option String} {La : List String}, FPChain store oa La →
      La.Nodup → Lb.Nodup →
      Lb.find? (fun x => La.contains x) = La.find? (fun x => Lb.contains x) := by
  induction hb with
  | nil =>
    intro oa La _ _ _
    have hr : La.find? (fun x => ([] : List String).contains x) = none :=
      List.find?_eq_none.2 (fun x _ => by simp)
    rw [hr]
    rfl
  | @cons hh c l hc hrest ih =>
    intro oa La ha hna hnb
    have hnb2 : l.Nodup := (List.nodup_cons.1 hnb).2
    by_cases hmem : La.contains hh = true
    · have hhmem : hh ∈ La := (contains_true_iff La hh).1 hmem
      rcases fpchain_suffix ha hhmem with ⟨P, S, hps, hchain⟩
      have hSl : hh :: S = hh :: l := fpchain_det hchain (FPChain.cons hc hrest)
      have hS : S = l := by injection hSl
      have hLa : La = P ++ hh :: l := by rw [hps, hS]
      have hfind1 : (hh :: l).find? (fun x => La.contains x) = some hh := by
        simp only [List.find?_cons, hmem]
      have hdisj : ∀ p ∈ P, p ∉ hh :: l := by
        intro p hp hpmem
        have hnd2 : (P ++ hh :: l).Nodup := hLa ▸ hna
        rcases List.nodup_append.1 hnd2 with ⟨_, _, hdis⟩
        exact hdis hp hpmem
      have hfind2 : La.find? (fun x => (hh :: l).contains x) = some hh := by
        rw [hLa]
        refine find?_append_first P hh l ?_ ?_
        · intro p hp
          exact bool_eq_false (fun habs => hdisj p hp ((contains_true_iff _ _).1 habs))
        · exact (contains_true_iff _ _).2 (List.mem_cons_self hh l)
      rw [hfind1, hfind2]
    · have hne : hh ∉ La := fun hmem2 => hmem ((contains_true_iff La hh).2 hmem2)
      have hmf : La.contains hh = false := bool_eq_false hmem
      have lhs : (hh :: l).find? (fun x => La.contains x) = l.find? (fun x => La.contains x) := by
        simp only [List.find?_cons, hmf]
      rw [lhs, ih ha hna hnb2]
      refine find?_congr_mem ?_
      intro x hx
      have hxne : x ≠ hh := fun he => hne (he ▸ hx)
      simp [List.contains_cons, beq_iff_eq, hxne]

/-- Running _collect_ancestors along a materialized chain with enough fuel
returns exactly that chain. -/
theorem collectAncestors_spec {store : Store} {o : Option String} {L : List String}
    (h : FPChain store o L) : ∀ {fuel : Nat}, L.length ≤ fuel →
      collectAncestors store fuel o = Except.ok L := by
  induction h with
  | nil =>
    intro fuel _
    cases fuel <;> rfl
  | @cons hh c l hc hrest ih =>
    intro fuel hlen
    cases fuel with
    | zero => simp at hlen
    | succ f =>
      have hlen2 : l.length ≤ f := Nat.succ_le_succ_iff.1 (by simpa using hlen)
      simp only [collectAncestors, hc]
      rw [ih hlen2]
      rfl

/-- Running the second walk along a materialized chain with enough fuel
returns the first chain element the collected set contains. -/
theorem walkFind_spec {store : Store} (anc : List String) {o : Option String} {L : List String}
    (h : FPChain store o L) : ∀ {fuel : Nat}, L.length ≤ fuel →
      walkFind store anc fuel o = Except.ok (L.find? (fun x => anc.contains x)) := by
  induction h with
  | nil =>
    intro fuel _
    cases fuel <;> rfl
  | @cons hh c l hc hrest ih =>
    intro fuel hlen
    cases fuel with
    | zero => simp at hlen
    | succ f =>
      have hlen2 : l.length ≤ f := Nat.succ_le_succ_iff.1 (by simpa using hlen)
      by_cases hm : anc.contains hh = true
      · simp only [walkFind, hm, List.find?_cons, if_true]
      · have hmf := bool_eq_false hm
        simp only [walkFind, hmf, List.find?_cons, hc, if_false, Bool.false_eq_true]
        exact ih hlen2

/-- C7: get_common_ancestor returns its first argument on equal inputs and
otherwise returns the first hash on the first-parent chain of the second
commit, the commit itself included, that lies on the first-parent chain of
the first commit, the commit itself included; the search result is none
exactly when no such hash exists. -/
theorem getCommonAncestor_chain_spec (store : Store) (fuel : Nat) (a b : String)
    (La Lb : List String)
    (ha : FPChain store (truthy (some a)) La) (hb : FPChain store (truthy (some b)) Lb)
    (hfa : La.length ≤ fuel) (hfb : Lb.length ≤ fuel) :
    (a = b → getCommonAncestor store fuel a b = Except.ok (some a)) ∧
    (a ≠ b → getCommonAncestor store fuel a b =
      Except.ok (Lb.find? (fun x => La.contains x))) := by
  constructor
  · intro heq
    simp [getCommonAncestor, heq]
  · intro hne
    simp only [getCommonAncestor, if_neg hne]
    rw [collectAncestors_spec ha hfa]
    exact walkFind_spec La hb hfb

/-- Concrete run of the ancestry oracle: a commit is its own ancestor and
the two children of a root meet at the root. -/
theorem getCommonAncestor_chain_spec_witness :
    getCommonAncestor storeCommits 2 "a" "a" = Except.ok (some "a") ∧
    getCommonAncestor storeCommits 2 "a" "b" = Except.ok (some "r") := by
  have chainA : FPChain storeCommits (truthy (some "a")) ["a", "r"] := by
    show FPChain storeCommits (some "a") ["a", "r"]
    refine FPChain.cons rfl ?_
    show FPChain storeCommits (some "r") ["r"]
    refine FPChain.cons rfl ?_
    show FPChain storeCommits none []
    exact FPChain.nil
  have chainB : FPChain storeCommits (truthy (some "b")) ["b", "r"] := by
    show FPChain storeCommits (some "b") ["b", "r"]
    refine FPChain.cons rfl ?_
    show FPChain storeCommits (some "r") ["r"]
    refine FPChain.cons rfl ?_
    show FPChain storeCommits none []
    exact FPChain.nil
  refine ⟨(getCommonAncestor_chain_spec storeCommits 2 "a" "a" ["a", "r"] ["a", "r"]
    chainA chainA (by decide) (by decide)).1 rfl, ?_⟩
  exact ((getCommonAncestor_chain_spec storeCommits 2 "a" "b" ["a", "r"] ["b", "r"]
    chainA chainB (by decide) (by decide)).2 (by decide)).trans rfl

/-- C8: get_common_ancestor is symmetric on commits with finite acyclic
first-parent chains. -/
theorem getCommonAncestor_symm (store : Store) (fuel : Nat) (a b : String)
    (La Lb : List String)
    (ha : FPChain store (truthy (some a)) La) (hb : FPChain store (truthy (some b)) Lb)
    (hna : La.Nodup) (hnb : Lb.Nodup)
    (hfa : La.length ≤ fuel) (hfb : Lb.length ≤ fuel) :
    getCommonAncestor store fuel a b = getCommonAncestor store fuel b a := by
  by_cases heq : a = b
  · rw [heq]
  · have h1 : getCommonAncestor store fuel a b =
        Except.ok (Lb.find? (fun x => La.contains x)) := by
      simp only [getCommonAncestor, if_neg heq]
      rw [collectAncestors_spec ha hfa]
      exact walkFind_spec La hb hfb
    have h2 : getCommonAncestor store fuel b a =
        Except.ok (La.find? (fun x => Lb.contains x)) := by
      have hne2 : ¬b = a := fun hba => heq hba.symm
      simp only [getCommonAncestor, if_neg hne2]
      rw [collectAncestors_spec hb hfb]
      exact walkFind_spec Lb ha hfa
    rw [h1, h2, find_symm store hb ha hna hnb]

/-- Concrete run of the symmetry of the ancestry oracle on the two children
of a root. -/
theorem getCommonAncestor_symm_witness :
    getCommonAncestor storeCommits 2 "a" "b" = getCommonAncestor storeCommits 2 "b" "a" := by
  have chainA : FPChain storeCommits (truthy (some "a")) ["a", "r"] := by
    show FPChain storeCommits (some "a") ["a", "r"]
    refine FPChain.cons rfl ?_
    show FPChain storeCommits (some "r") ["r"]
    refine FPChain.cons rfl ?_
    show FPChain storeCommits none []
    exact FPChain.nil
  have chainB : FPChain storeCommits (truthy (some "b")) ["b", "r"] := by
    show FPChain storeCommits (some "b") ["b", "r"]
    refine FPChain.cons rfl ?_
    show FPChain storeCommits (some "r") ["r"]
    refine FPChain.cons rfl ?_
    show FPChain storeCommits none []
    exact FPChain.nil
  exact getCommonAncestor_symm storeCommits 2 "a" "b" ["a", "r"] ["b", "r"]
    chainA chainB (by decide) (by decide) (by decide) (by decide)

/-- C2: whenever the merge driver surfaces a merge conflict, the repository
state it returns is the input state: HEAD and the working directory are
unchanged. -/
theorem mergeDriver_conflict_preserves_state (store : Store) (fuel : Nat) (author : String)
    (timestamp : Int) (st : RepoState) (target : String) (m : String)
    (h : (mergeDriver store fuel author timestamp st target).2 =
      Except.error (CafError.mergeConflict m)) :
    (mergeDriver store fuel author timestamp st target).1 = st := by
  revert h
  unfold mergeDriver
  repeat' split
  all_goals intro h
  all_goals first
    | rfl
    | simp at h

/-- Concrete run of the driver on a delete-versus-modify conflict: the
returned state keeps the original HEAD and working directory. -/
theorem mergeDriver_conflict_preserves_state_witness :
    (mergeDriver storeDriver 3 "au" 0 ⟨some "c1", []⟩ "c2").1 = ⟨some "c1", []⟩ :=
  mergeDriver_conflict_preserves_state storeDriver 3 "au" 0 ⟨some "c1", []⟩ "c2"
    ("conflict: one deleted and one changed: " ++ "f") rfl

/-- Concrete run of the names invariant on the merged dict of the stored
trees B and X. -/
theorem mergeTrees_entry_names_invariant_witness :
    ("a" ∈ keysOf (recordsOf storeTrees "B") ∨ "a" ∈ keysOf (recordsOf storeTrees "X") ∨
      "a" ∈ keysOf (recordsOf storeTrees "B")) ∧
    (⟨TreeRecordType.BLOB, "h1", "a"⟩ : TreeRecord).name = "a" :=
  mergeTrees_entry_names_invariant storeTrees 0 "B" "X" "B"
    [("a", ⟨TreeRecordType.BLOB, "h1", "a"⟩)] rfl rfl rfl rfl "a"
    ⟨TreeRecordType.BLOB, "h1", "a"⟩ (List.mem_singleton.2 rfl)

end Libcaf
